import Mathlib

/- Verification of the day-21 keypad-chain engine (src/days/21/mod.ts): a
shallow embedding of the source functions, a reference recurrence and a
brute-force expansion following the design document, and proofs relating
them. -/

set_option autoImplicit false
set_option maxRecDepth 40000

namespace Day21

/-- Costs are JavaScript numbers restricted to the values this program
produces: non-negative integers together with `Infinity`, modelled as
`WithTop ℕ` (so `Infinity` is `⊤`, `min` and `+` agree with JS on these
values). -/
abbrev Cost := WithTop ℕ

/-- The type `Point = [number, number]` of mod.ts.  Coordinates are small
naturals, but differences of coordinates are signed, so integers are used. -/
abbrev Point := Int × Int

/-- A keyboard (`Map<string, Point>` in mod.ts) as an association list from key
characters to positions.  Both concrete keyboards have pairwise distinct keys,
so first-match lookup agrees with JavaScript `Map.get`. -/
abbrev Keyboard := List (Char × Point)

/-- Lookup in an association list, mirroring `Map.get`. -/
def mapGet {α : Type} (m : List (Char × α)) (k : Char) : Option α :=
  match m with
  | [] => none
  | (k', v) :: rest => if k = k' then some v else mapGet rest k

/-- The `movementCosts` map of mod.ts: the JavaScript `Map` keyed by the string
`` `${layer},${startKey},${endKey}` `` becomes an association list keyed by the
triple `(layer, startKey, endKey)`; the string rendering is injective for the
single-character keys used.  `Map.set` prepends and lookup takes the first
match, so a later `set` of a key shadows an earlier one, as in JS. -/
abbrev CostMap := List ((Nat × Char × Char) × Cost)

/-- One write to the movement-cost map (`movementCosts.set` in mod.ts). -/
def setCost (m : CostMap) (l : Nat) (s e : Char) (v : Cost) : CostMap :=
  ((l, s, e), v) :: m

/-- One read from the movement-cost map (`movementCosts.get` in mod.ts). -/
def getCost (m : CostMap) (l : Nat) (s e : Char) : Option Cost :=
  match m with
  | [] => none
  | (k, v) :: rest => if (l, s, e) = k then some v else getCost rest l s e

/-- mod.ts lines 10-19, `initMovements`: for every ordered pair of keys of the
given layout, the layer-0 cost is set to 1. -/
def initMovements (layout : Keyboard) : CostMap :=
  layout.foldl
    (fun costs se => layout.foldl (fun costs2 ee => setCost costs2 0 se.1 ee.1 1) costs)
    []

/-- mod.ts lines 28-32, `createMoveSequence`. -/
def createMoveSequence (distance : Int) (positiveChar negativeChar : Char) : List Char :=
  List.replicate distance.natAbs (if 0 < distance then positiveChar else negativeChar)

/-- mod.ts lines 41-43, `isBlockedPath`. -/
def isBlockedPath (x y : Int) (spacePos : Point) : Bool :=
  spacePos.1 = x ∧ spacePos.2 = y

/-- The consecutive pairs `(fullSequence[i], sequence[i])` visited by the loop
of `countTotalPresses`, where `fullSequence = "A" + sequence`. -/
def pairsFrom (prev : Char) : List Char → List (Char × Char)
  | [] => []
  | c :: rest => (prev, c) :: pairsFrom c rest

/-- mod.ts lines 52-65, `countTotalPresses`: sum the stored costs of the
consecutive transitions of `"A" + sequence`.  The guard `if (pressCost)` skips
entries that are missing (or zero, which never occurs for a stored entry), the
same as adding `(…).getD 0`. -/
def countTotalPresses (layer : Nat) (sequence : List Char) (movementCosts : CostMap) : Cost :=
  (pairsFrom 'A' sequence).foldl
    (fun totalPresses p => totalPresses + (getCost movementCosts layer p.1 p.2).getD 0) 0

/-- mod.ts lines 115-122, `createKeyboards`: rows of keys laid out on a grid,
key `(x, y)` taken from column `x` of row `y`. -/
def createKeyboard (rows : List String) : Keyboard :=
  rows.enum.flatMap fun yrow =>
    yrow.2.toList.enum.map fun xkey => (xkey.2, ((xkey.1 : Int), (yrow.1 : Int)))

/-- mod.ts line 116: the directional keyboard `[" ^A", "<v>"]` (gap at (0,0)). -/
def arrowKeyboard : Keyboard := createKeyboard [" ^A", "<v>"]

/-- mod.ts lines 117-119: the numeric keyboard `["789", "456", "123", " 0A"]`
(gap at (0,3)). -/
def numericKeyboard : Keyboard := createKeyboard ["789", "456", "123", " 0A"]

/-- The keyboard active while `countMinimalKeyPresses(…, layers)` processes a
given layer: mod.ts line 79 switches to the numeric keyboard exactly at the
final layer (`if (layer === layers) keyboard = numerics`). -/
def kbAt (layers layer : Nat) : Keyboard :=
  if layer = layers then numericKeyboard else arrowKeyboard

/-- The body of the double loop of `countMinimalKeyPresses` (mod.ts lines
83-105) for one layer: for every ordered pair of keys of the active keyboard,
store the minimum over the two groupings (horizontal-run-first /
vertical-run-first, each `Infinity` when its corner is the gap) of the cost, at
the previous layer, of the move-and-press string.  The reads
(`countTotalPresses` at `layer - 1`) come from the evolving map, exactly as in
the source. -/
def layerStep (layer : Nat) (keyboard : Keyboard) (m : CostMap) : CostMap :=
  keyboard.foldl
    (fun acc1 se =>
      keyboard.foldl
        (fun acc2 ee =>
          let startX := se.2.1
          let startY := se.2.2
          let endX := ee.2.1
          let endY := ee.2.2
          let horizontalMoves := createMoveSequence (endX - startX) '>' '<'
          let verticalMoves := createMoveSequence (endY - startY) 'v' '^'
          let spacePosition := (mapGet keyboard ' ').getD (0, 0)
          let horizontalFirstCost : Cost :=
            if isBlockedPath endX startY spacePosition then ⊤
            else countTotalPresses (layer - 1) (horizontalMoves ++ verticalMoves ++ ['A']) acc2
          let verticalFirstCost : Cost :=
            if isBlockedPath startX endY spacePosition then ⊤
            else countTotalPresses (layer - 1) (verticalMoves ++ horizontalMoves ++ ['A']) acc2
          setCost acc2 layer se.1 ee.1 (min horizontalFirstCost verticalFirstCost))
        acc1)
    m

/-- The state of `movementCosts` in `countMinimalKeyPresses(…, layers)` after
the loop of mod.ts line 78 has processed layers `1 … upTo`. -/
def buildCosts (layers : Nat) : Nat → CostMap
  | 0 => initMovements arrowKeyboard
  | upTo + 1 => layerStep (upTo + 1) (kbAt layers (upTo + 1)) (buildCosts layers upTo)

/-- mod.ts lines 73-109, `countMinimalKeyPresses`. -/
def countMinimalKeyPresses (sequence : List Char) (layers : Nat) : Cost :=
  countTotalPresses layers sequence (buildCosts layers layers)

/- Definitions for the specification side: the reference recurrence of the
design document and the brute-force expansion it is compared with. -/

/-- Sum of `f` over the consecutive pairs of `"A" + sequence` — the summation
rule the design document uses both inside the recurrence and at the top. -/
def sumPairs (f : Char → Char → Cost) (sequence : List Char) : Cost :=
  ((pairsFrom 'A' sequence).map fun p => f p.1 p.2).sum

/-- Cost of the cheaper of the two groupings from `startPos` to `endPos`:
horizontal-run-then-vertical-run and vertical-run-then-horizontal-run, each
followed by the activate press, each infinite when its intermediate corner is
the gap cell, each otherwise priced by `f` summed over the consecutive pairs of
its `"A"`-prefixed move-and-press string. -/
def groupCost (f : Char → Char → Cost) (startPos endPos spacePosition : Point) : Cost :=
  min
    (if isBlockedPath endPos.1 startPos.2 spacePosition then ⊤
     else sumPairs f (createMoveSequence (endPos.1 - startPos.1) '>' '<' ++
       createMoveSequence (endPos.2 - startPos.2) 'v' '^' ++ ['A']))
    (if isBlockedPath startPos.1 endPos.2 spacePosition then ⊤
     else sumPairs f (createMoveSequence (endPos.2 - startPos.2) 'v' '^' ++
       createMoveSequence (endPos.1 - startPos.1) '>' '<' ++ ['A']))

/-- The reference definition of the design document, section 4.2: the layered
transition-cost recurrence.  `specCost N L s e` is `cost[L][s][e]` for a chain
of depth `N`: `cost[0]` is the constant 1, and `cost[L]` for `L ≥ 1` is the
minimum over the valid groupings `g` of the sum of `cost[L-1][a][b]` over the
consecutive pairs `(a, b)` of `"A" + g`, on the layout active at layer `L`
(directional below the final layer, numeric at the final layer).  Outside the
active layout's key set the value is left at 0 (the document leaves it
undefined there). -/
def specCost (N : Nat) : Nat → Char → Char → Cost
  | 0, _, _ => 1
  | L + 1, s, e =>
      match mapGet (kbAt N (L + 1)) s, mapGet (kbAt N (L + 1)) e with
      | some sp, some ep =>
          groupCost (specCost N L) sp ep ((mapGet (kbAt N (L + 1)) ' ').getD (0, 0))
      | _, _ => 0

/-- The reference total of the design document: the sum, over the consecutive
pairs of `"A" + sequence`, of `cost[N][a][b]`. -/
def specTotal (N : Nat) (sequence : List Char) : Cost :=
  sumPairs (specCost N N) sequence

/-- The valid groupings for one transition: the horizontal-run-first and the
vertical-run-first move-and-press strings, with the ones whose intermediate
corner is the gap cell excluded. -/
def validGroupings (kb : Keyboard) (s e : Char) : List (List Char) :=
  match mapGet kb s, mapGet kb e with
  | some sp, some ep =>
      (if isBlockedPath ep.1 sp.2 ((mapGet kb ' ').getD (0, 0)) then []
       else [createMoveSequence (ep.1 - sp.1) '>' '<' ++
         createMoveSequence (ep.2 - sp.2) 'v' '^' ++ ['A']]) ++
      (if isBlockedPath sp.1 ep.2 ((mapGet kb ' ').getD (0, 0)) then []
       else [createMoveSequence (ep.2 - sp.2) 'v' '^' ++
         createMoveSequence (ep.1 - sp.1) '>' '<' ++ ['A']])
  | _, _ => []

/-- All full expansions of a list of transitions: one valid grouping is chosen
for each transition and the chosen strings are concatenated. -/
def expandChoices (kb : Keyboard) : List (Char × Char) → List (List Char)
  | [] => [[]]
  | p :: ps =>
      (validGroupings kb p.1 p.2).flatMap fun g =>
        (expandChoices kb ps).map fun e => g ++ e

/-- All full one-layer expansions of a sequence (one grouping chosen per
consecutive pair of `"A" + sequence`). -/
def expansions (kb : Keyboard) (sequence : List Char) : List (List Char) :=
  expandChoices kb (pairsFrom 'A' sequence)

/-- Minimum of a list of costs (`⊤` for the empty list). -/
def listMin (l : List Cost) : Cost := l.foldr min ⊤

/-- Brute force: the length of the shortest fully expanded bottom-layer
sequence obtained by expanding through all `N` layers (numeric layout at the
outermost layer, directional below), choosing groupings freely. -/
def bruteMin (N : Nat) : Nat → List Char → Cost
  | 0, sequence => (sequence.length : Cost)
  | L + 1, sequence => listMin ((expansions (kbAt N (L + 1)) sequence).map (bruteMin N L))

/-- The move characters (with activate) that grouping strings are built from. -/
def moveChars : List Char := ['<', '>', '^', 'v', 'A']

/-- The symbols of the directional layout (its alphabet, gap cell excluded). -/
def arrowSymbols : List Char := ['^', 'A', '<', 'v', '>']

/-- The symbols of the numeric layout (its alphabet, gap cell excluded). -/
def numericSymbols : List Char := ['7', '8', '9', '4', '5', '6', '1', '2', '3', '0', 'A']

/-- The symbol alphabet of both layouts together. -/
def fullAlphabet : List Char :=
  ['0', '1', '2', '3', '4', '5', '6', '7', '8', '9', 'A', '<', '>', '^', 'v']

lemma arrow_nodup : (arrowKeyboard.map Prod.fst).Nodup := by decide

lemma numeric_nodup : (numericKeyboard.map Prod.fst).Nodup := by decide

lemma kbAt_nodup (layers layer : Nat) : ((kbAt layers layer).map Prod.fst).Nodup := by
  unfold kbAt
  split
  · exact numeric_nodup
  · exact arrow_nodup

lemma moveChars_in_arrow : ∀ c ∈ moveChars, (mapGet arrowKeyboard c).isSome := by decide

lemma numericSymbols_in_numeric : ∀ c ∈ numericSymbols, (mapGet numericKeyboard c).isSome := by
  decide

/- Basic lemmas about sums, pairs and characters. -/

lemma foldl_add_eq_sum {α : Type} (f : α → Cost) :
    ∀ (l : List α) (c : Cost), l.foldl (fun t x => t + f x) c = c + (l.map f).sum
  | [], c => by simp
  | x :: l, c => by
      rw [List.foldl_cons, foldl_add_eq_sum f l (c + f x), List.map_cons, List.sum_cons,
        add_assoc]

lemma countTotalPresses_eq_sumPairs (layer : Nat) (seq : List Char) (m : CostMap) :
    countTotalPresses layer seq m = sumPairs (fun a b => (getCost m layer a b).getD 0) seq := by
  rw [countTotalPresses, sumPairs, foldl_add_eq_sum, zero_add]

lemma mem_pairsFrom {p : Char × Char} :
    ∀ {c : Char} {l : List Char}, p ∈ pairsFrom c l → p.1 ∈ c :: l ∧ p.2 ∈ l := by
  intro c l
  induction l generalizing c with
  | nil => intro h; exact absurd h (by simp [pairsFrom])
  | cons x xs ih =>
      intro h
      rw [pairsFrom] at h
      rcases List.mem_cons.mp h with h | h
      · subst h; exact ⟨List.mem_cons_self _ _, List.mem_cons_self _ _⟩
      · obtain ⟨h1, h2⟩ := ih h
        refine ⟨?_, List.mem_cons_of_mem _ h2⟩
        rcases List.mem_cons.mp h1 with h1 | h1
        · exact h1 ▸ List.mem_cons_of_mem _ (List.mem_cons_self _ _)
        · exact List.mem_cons_of_mem _ (List.mem_cons_of_mem _ h1)

lemma pairsFrom_length : ∀ (c : Char) (l : List Char), (pairsFrom c l).length = l.length
  | _, [] => rfl
  | c, x :: xs => by rw [pairsFrom, List.length_cons, List.length_cons, pairsFrom_length]

lemma sumPairs_congr {f g : Char → Char → Cost} {seq : List Char}
    (h : ∀ p ∈ pairsFrom 'A' seq, f p.1 p.2 = g p.1 p.2) : sumPairs f seq = sumPairs g seq := by
  unfold sumPairs
  exact congrArg List.sum (List.map_congr_left fun p hp => h p hp)

lemma sumPairs_mono {f g : Char → Char → Cost} {seq : List Char}
    (h : ∀ p ∈ pairsFrom 'A' seq, f p.1 p.2 ≤ g p.1 p.2) : sumPairs f seq ≤ sumPairs g seq :=
  List.sum_le_sum fun p hp => h p hp

lemma sumPairs_one (seq : List Char) : sumPairs (fun _ _ => (1 : Cost)) seq = (seq.length : Cost) := by
  unfold sumPairs
  rw [← pairsFrom_length 'A' seq]
  generalize pairsFrom 'A' seq = l
  induction l with
  | nil => rfl
  | cons x xs ih =>
      rw [List.map_cons, List.sum_cons, List.length_cons, ih, Nat.cast_add_one, add_comm]

lemma mem_createMoveSequence {c : Char} {d : Int} {p n : Char}
    (h : c ∈ createMoveSequence d p n) : c = p ∨ c = n := by
  rw [createMoveSequence] at h
  have := List.eq_of_mem_replicate h
  split at this
  · exact Or.inl this
  · exact Or.inr this

lemma grouping_chars {l1 l2 : List Char}
    (h1 : ∀ c ∈ l1, c ∈ moveChars) (h2 : ∀ c ∈ l2, c ∈ moveChars) :
    ∀ c ∈ l1 ++ l2 ++ ['A'], c ∈ moveChars := by
  intro c hc
  rcases List.mem_append.mp hc with hc | hc
  · rcases List.mem_append.mp hc with hc | hc
    · exact h1 _ hc
    · exact h2 _ hc
  · rcases List.mem_singleton.mp hc with rfl; decide

lemma horizontal_chars {d : Int} : ∀ c ∈ createMoveSequence d '>' '<', c ∈ moveChars := by
  intro c hc
  rcases mem_createMoveSequence hc with rfl | rfl <;> decide

lemma vertical_chars {d : Int} : ∀ c ∈ createMoveSequence d 'v' '^', c ∈ moveChars := by
  intro c hc
  rcases mem_createMoveSequence hc with rfl | rfl <;> decide

lemma sumPairs_congr_chars {f g : Char → Char → Cost} {seq : List Char}
    (hseq : ∀ c ∈ seq, c ∈ moveChars)
    (h : ∀ a ∈ moveChars, ∀ b ∈ moveChars, f a b = g a b) : sumPairs f seq = sumPairs g seq := by
  refine sumPairs_congr fun p hp => ?_
  obtain ⟨h1, h2⟩ := mem_pairsFrom hp
  rcases List.mem_cons.mp h1 with h1 | h1
  · exact h _ (h1 ▸ (by decide : 'A' ∈ moveChars)) _ (hseq _ h2)
  · exact h _ (hseq _ h1) _ (hseq _ h2)

lemma sumPairs_mono_chars {f g : Char → Char → Cost} {seq : List Char}
    (hseq : ∀ c ∈ seq, c ∈ moveChars)
    (h : ∀ a ∈ moveChars, ∀ b ∈ moveChars, f a b ≤ g a b) : sumPairs f seq ≤ sumPairs g seq := by
  refine sumPairs_mono fun p hp => ?_
  obtain ⟨h1, h2⟩ := mem_pairsFrom hp
  rcases List.mem_cons.mp h1 with h1 | h1
  · exact h _ (h1 ▸ (by decide : 'A' ∈ moveChars)) _ (hseq _ h2)
  · exact h _ (hseq _ h1) _ (hseq _ h2)

lemma groupCost_congr {f g : Char → Char → Cost} (sp ep gap : Point)
    (h : ∀ a ∈ moveChars, ∀ b ∈ moveChars, f a b = g a b) :
    groupCost f sp ep gap = groupCost g sp ep gap := by
  unfold groupCost
  congr 1
  · split
    · rfl
    · exact sumPairs_congr_chars (grouping_chars horizontal_chars vertical_chars) h
  · split
    · rfl
    · exact sumPairs_congr_chars (grouping_chars vertical_chars horizontal_chars) h

lemma groupCost_mono {f g : Char → Char → Cost} (sp ep gap : Point)
    (h : ∀ a ∈ moveChars, ∀ b ∈ moveChars, f a b ≤ g a b) :
    groupCost f sp ep gap ≤ groupCost g sp ep gap := by
  unfold groupCost
  refine min_le_min ?_ ?_
  · split
    · exact le_refl _
    · exact sumPairs_mono_chars (grouping_chars horizontal_chars vertical_chars) h
  · split
    · exact le_refl _
    · exact sumPairs_mono_chars (grouping_chars vertical_chars horizontal_chars) h

/- Characterisation of the imperative construction of the movement-cost map. -/

lemma getCost_cons (k : Nat × Char × Char) (v : Cost) (m : CostMap) (l : Nat) (s e : Char) :
    getCost ((k, v) :: m) l s e = if (l, s, e) = k then some v else getCost m l s e := rfl

lemma mapGet_cons {α : Type} (k : Char) (v : α) (rest : List (Char × α)) (c : Char) :
    mapGet ((k, v) :: rest) c = if c = k then some v else mapGet rest c := rfl

lemma mapGet_eq_none {α : Type} {l : List (Char × α)} {c : Char}
    (h : c ∉ l.map Prod.fst) : mapGet l c = none := by
  induction l with
  | nil => rfl
  | cons kv rest ih =>
      rw [mapGet_cons kv.1 kv.2, if_neg, ih]
      · intro hm
        exact h (List.mem_cons_of_mem _ hm)
      · intro hc
        exact h (hc ▸ List.mem_cons_self _ _)

lemma mapGet_isSome_of_some {α : Type} {l : List (Char × α)} {c : Char} {v : α}
    (h : mapGet l c = some v) : (mapGet l c).isSome := by rw [h]; rfl

/-- The value stored by one inner-loop iteration of mod.ts lines 85-103
(the `let`-block of `layerStep`, named so that it can be reasoned about). -/
def entryVal (layer : Nat) (kb : Keyboard) (se ee : Char × Point) (m : CostMap) : Cost :=
  min
    (if isBlockedPath ee.2.1 se.2.2 ((mapGet kb ' ').getD (0, 0)) then ⊤
     else countTotalPresses (layer - 1)
       (createMoveSequence (ee.2.1 - se.2.1) '>' '<' ++
         createMoveSequence (ee.2.2 - se.2.2) 'v' '^' ++ ['A']) m)
    (if isBlockedPath se.2.1 ee.2.2 ((mapGet kb ' ').getD (0, 0)) then ⊤
     else countTotalPresses (layer - 1)
       (createMoveSequence (ee.2.2 - se.2.2) 'v' '^' ++
         createMoveSequence (ee.2.1 - se.2.1) '>' '<' ++ ['A']) m)

lemma layerStep_eq (layer : Nat) (kb : Keyboard) (m : CostMap) :
    layerStep layer kb m =
      kb.foldl
        (fun acc1 se =>
          kb.foldl
            (fun acc2 ee => setCost acc2 layer se.1 ee.1 (entryVal layer kb se ee acc2)) acc1)
        m := rfl

/-- The value a finished layer stores for a pair of positions, expressed
against a fixed base map read at the previous layer. -/
def pairVal (layer : Nat) (kb : Keyboard) (base : CostMap) (sp ep : Point) : Cost :=
  groupCost (fun a b => (getCost base (layer - 1) a b).getD 0) sp ep ((mapGet kb ' ').getD (0, 0))

lemma entryVal_eq_groupCost (layer : Nat) (kb : Keyboard) (se ee : Char × Point) (m : CostMap) :
    entryVal layer kb se ee m = pairVal layer kb m se.2 ee.2 := by
  unfold entryVal pairVal groupCost
  rw [countTotalPresses_eq_sumPairs, countTotalPresses_eq_sumPairs]

/-- During one layer of the double loop, everything prepended to the base map
is keyed at that layer. -/
def WritesAt (layer : Nat) (base m : CostMap) : Prop :=
  ∃ pre, m = pre ++ base ∧ ∀ kv ∈ pre, kv.1.1 = layer

lemma writesAt_self (layer : Nat) (base : CostMap) : WritesAt layer base base :=
  ⟨[], rfl, by intro kv h; exact absurd h (List.not_mem_nil kv)⟩

lemma writesAt_set {layer : Nat} {base m : CostMap} (h : WritesAt layer base m)
    (s e : Char) (v : Cost) : WritesAt layer base (setCost m layer s e v) := by
  obtain ⟨pre, rfl, hpre⟩ := h
  refine ⟨((layer, s, e), v) :: pre, rfl, ?_⟩
  intro kv hkv
  rcases List.mem_cons.mp hkv with rfl | hkv
  · rfl
  · exact hpre kv hkv

lemma getCost_writesAt {layer : Nat} {base m : CostMap} (h : WritesAt layer base m)
    {l : Nat} (hl : l ≠ layer) (s e : Char) : getCost m l s e = getCost base l s e := by
  obtain ⟨pre, rfl, hpre⟩ := h
  induction pre with
  | nil => rfl
  | cons kv pre ih =>
      rcases kv with ⟨k, v⟩
      have hk1 : k.1 = layer := hpre (k, v) (List.mem_cons_self _ _)
      rw [List.cons_append, getCost_cons, if_neg,
        ih fun kv h => hpre kv (List.mem_cons_of_mem _ h)]
      intro hk
      apply hl
      have : (l, s, e).1 = k.1 := congrArg Prod.fst hk
      rw [hk1] at this
      exact this

lemma entryVal_base {layer : Nat} (hl : 1 ≤ layer) {kb : Keyboard} {base m : CostMap}
    (h : WritesAt layer base m) (se ee : Char × Point) :
    entryVal layer kb se ee m = pairVal layer kb base se.2 ee.2 := by
  rw [entryVal_eq_groupCost]
  unfold pairVal
  refine groupCost_congr _ _ _ fun a _ b _ => ?_
  rw [getCost_writesAt h (by omega) a b]

lemma innerFold_spec (layer : Nat) (hl : 1 ≤ layer) (kb : Keyboard) (base : CostMap)
    (se : Char × Point) :
    ∀ (rest : List (Char × Point)) (acc : CostMap), WritesAt layer base acc →
      (rest.map Prod.fst).Nodup →
      (WritesAt layer base
        (rest.foldl
          (fun acc2 ee => setCost acc2 layer se.1 ee.1 (entryVal layer kb se ee acc2)) acc)) ∧
      (∀ e' ep, mapGet rest e' = some ep →
        getCost
          (rest.foldl
            (fun acc2 ee => setCost acc2 layer se.1 ee.1 (entryVal layer kb se ee acc2)) acc)
          layer se.1 e' = some (pairVal layer kb base se.2 ep)) ∧
      (∀ s' e', (s' = se.1 → mapGet rest e' = none) →
        getCost
          (rest.foldl
            (fun acc2 ee => setCost acc2 layer se.1 ee.1 (entryVal layer kb se ee acc2)) acc)
          layer s' e' = getCost acc layer s' e') := by
  intro rest
  induction rest with
  | nil =>
      intro acc hacc _
      refine ⟨hacc, ?_, ?_⟩
      · intro e' ep h
        exact absurd h (by rw [mapGet]; simp)
      · intro s' e' _
        rfl
  | cons ee rest ih =>
      intro acc hacc hnd
      rw [List.map_cons, List.nodup_cons] at hnd
      obtain ⟨hee, hnd⟩ := hnd
      rw [List.foldl_cons]
      have hval : entryVal layer kb se ee acc = pairVal layer kb base se.2 ee.2 :=
        entryVal_base hl hacc se ee
      set acc' := setCost acc layer se.1 ee.1 (entryVal layer kb se ee acc) with hacc'def
      have hacc' : WritesAt layer base acc' := writesAt_set hacc _ _ _
      obtain ⟨hw, h1, h2⟩ := ih acc' hacc' hnd
      refine ⟨hw, ?_, ?_⟩
      · intro e' ep hget
        rw [mapGet_cons] at hget
        by_cases he' : e' = ee.1
        · rw [if_pos he'] at hget
          injection hget with hep
          have hrest : mapGet rest e' = none := mapGet_eq_none (he' ▸ hee)
          rw [h2 se.1 e' fun _ => hrest, hacc'def, setCost, getCost_cons,
            if_pos (by rw [he']), hval, hep]
        · rw [if_neg he'] at hget
          exact h1 e' ep hget
      · intro s' e' hcond
        by_cases hs' : s' = se.1
        · have hnone := hcond hs'
          rw [mapGet_cons] at hnone
          by_cases he' : e' = ee.1
          · rw [if_pos he'] at hnone
            exact absurd hnone (by simp)
          · rw [if_neg he'] at hnone
            rw [h2 s' e' fun _ => hnone, hacc'def, setCost, getCost_cons, if_neg]
            intro hk
            injection hk with _ hk
            injection hk with hk1 hk2
            exact he' hk2
        · rw [h2 s' e' fun h => absurd h hs', hacc'def, setCost, getCost_cons, if_neg]
          intro hk
          injection hk with _ hk
          injection hk with hk1 hk2
          exact hs' hk1

lemma outerFold_spec (layer : Nat) (hl : 1 ≤ layer) (kb : Keyboard) (base : CostMap)
    (hkb : (kb.map Prod.fst).Nodup) :
    ∀ (rest : List (Char × Point)) (acc : CostMap), WritesAt layer base acc →
      (rest.map Prod.fst).Nodup →
      (WritesAt layer base
        (rest.foldl
          (fun acc1 se =>
            kb.foldl
              (fun acc2 ee => setCost acc2 layer se.1 ee.1 (entryVal layer kb se ee acc2)) acc1)
          acc)) ∧
      (∀ s' sp e' ep, mapGet rest s' = some sp → mapGet kb e' = some ep →
        getCost
          (rest.foldl
            (fun acc1 se =>
              kb.foldl
                (fun acc2 ee => setCost acc2 layer se.1 ee.1 (entryVal layer kb se ee acc2)) acc1)
            acc)
          layer s' e' = some (pairVal layer kb base sp ep)) ∧
      (∀ s' e', (mapGet rest s' = none ∨ mapGet kb e' = none) →
        getCost
          (rest.foldl
            (fun acc1 se =>
              kb.foldl
                (fun acc2 ee => setCost acc2 layer se.1 ee.1 (entryVal layer kb se ee acc2)) acc1)
            acc)
          layer s' e' = getCost acc layer s' e') := by
  intro rest
  induction rest with
  | nil =>
      intro acc hacc _
      exact ⟨hacc, fun s' sp e' ep h _ => absurd h (by rw [mapGet]; simp),
        fun s' e' _ => rfl⟩
  | cons se rest ih =>
      intro acc hacc hnd
      rw [List.map_cons, List.nodup_cons] at hnd
      obtain ⟨hse, hnd⟩ := hnd
      rw [List.foldl_cons]
      obtain ⟨hw0, hin1, hin2⟩ := innerFold_spec layer hl kb base se kb acc hacc hkb
      set acc' :=
        kb.foldl (fun acc2 ee => setCost acc2 layer se.1 ee.1 (entryVal layer kb se ee acc2)) acc
        with hacc'def
      obtain ⟨hw, h1, h2⟩ := ih acc' hw0 hnd
      refine ⟨hw, ?_, ?_⟩
      · intro s' sp e' ep hs hgete
        rw [mapGet_cons] at hs
        by_cases hs' : s' = se.1
        · rw [if_pos hs'] at hs
          injection hs with hsp
          have hrest : mapGet rest s' = none := mapGet_eq_none (hs' ▸ hse)
          rw [h2 s' e' (Or.inl hrest), hacc'def, hs' ]
          rw [hin1 e' ep hgete, hsp]
        · rw [if_neg hs'] at hs
          exact h1 s' sp e' ep hs hgete
      · intro s' e' hcond
        rcases hcond with hs | he
        · rw [mapGet_cons] at hs
          by_cases hs' : s' = se.1
          · rw [if_pos hs'] at hs
            exact absurd hs (by simp)
          · rw [if_neg hs'] at hs
            rw [h2 s' e' (Or.inl hs), hacc'def, hin2 s' e' fun h => absurd h hs']
        · rw [h2 s' e' (Or.inr he), hacc'def, hin2 s' e' fun _ => he]

lemma getCost_layerStep (layer : Nat) (hl : 1 ≤ layer) {kb : Keyboard}
    (hkb : (kb.map Prod.fst).Nodup) (m : CostMap) :
    (∀ s sp e ep, mapGet kb s = some sp → mapGet kb e = some ep →
      getCost (layerStep layer kb m) layer s e = some (pairVal layer kb m sp ep)) ∧
    (∀ s e, (mapGet kb s = none ∨ mapGet kb e = none) →
      getCost (layerStep layer kb m) layer s e = getCost m layer s e) ∧
    (∀ l s e, l ≠ layer → getCost (layerStep layer kb m) l s e = getCost m l s e) := by
  rw [layerStep_eq]
  obtain ⟨hw, h1, h2⟩ := outerFold_spec layer hl kb m hkb kb m (writesAt_self _ _) hkb
  exact ⟨h1, h2, fun l s e hne => getCost_writesAt hw hne s e⟩

lemma initInner_spec (se : Char × Point) :
    ∀ (rest : List (Char × Point)) (acc : CostMap) (l : Nat) (s e : Char),
      getCost (rest.foldl (fun costs2 ee => setCost costs2 0 se.1 ee.1 1) acc) l s e =
        if l = 0 ∧ s = se.1 ∧ (mapGet rest e).isSome then some 1 else getCost acc l s e := by
  intro rest
  induction rest with
  | nil =>
      intro acc l s e
      rw [List.foldl_nil, if_neg]
      rintro ⟨-, -, h⟩
      exact absurd h (by rw [mapGet]; simp)
  | cons ee rest ih =>
      intro acc l s e
      rw [List.foldl_cons, ih, setCost, getCost_cons, mapGet_cons]
      by_cases hl0 : l = 0 <;> by_cases hs : s = se.1 <;> by_cases he : e = ee.1 <;>
        by_cases hr : (mapGet rest e).isSome <;>
        simp [hl0, hs, he, hr, Prod.mk.injEq]

lemma initOuter_spec (layout : Keyboard) :
    ∀ (rest : List (Char × Point)) (acc : CostMap) (l : Nat) (s e : Char),
      getCost
        (rest.foldl
          (fun costs se => layout.foldl (fun costs2 ee => setCost costs2 0 se.1 ee.1 1) costs)
          acc) l s e =
        if l = 0 ∧ (mapGet rest s).isSome ∧ (mapGet layout e).isSome then some 1
        else getCost acc l s e := by
  intro rest
  induction rest with
  | nil =>
      intro acc l s e
      rw [List.foldl_nil, if_neg]
      rintro ⟨-, h, -⟩
      exact absurd h (by rw [mapGet]; simp)
  | cons se rest ih =>
      intro acc l s e
      rw [List.foldl_cons, ih, initInner_spec, mapGet_cons]
      by_cases hl0 : l = 0 <;> by_cases hs : s = se.1 <;>
        by_cases hr : (mapGet rest s).isSome <;>
        by_cases hle : (mapGet layout e).isSome <;> simp [hl0, hs, hr, hle]

lemma getCost_init (layout : Keyboard) (l : Nat) (s e : Char) :
    getCost (initMovements layout) l s e =
      if l = 0 ∧ (mapGet layout s).isSome ∧ (mapGet layout e).isSome then some 1 else none := by
  rw [initMovements, initOuter_spec]
  rfl

lemma getCost_buildCosts_above {layers : Nat} :
    ∀ {upTo l : Nat}, upTo < l → ∀ (s e : Char), getCost (buildCosts layers upTo) l s e = none := by
  intro upTo
  induction upTo with
  | zero =>
      intro l hl s e
      rw [buildCosts, getCost_init, if_neg]
      rintro ⟨h0, -⟩
      omega
  | succ k ih =>
      intro l hl s e
      rw [buildCosts]
      obtain ⟨-, -, hother⟩ :=
        getCost_layerStep (k + 1) (by omega) (kbAt_nodup layers (k + 1))
          (buildCosts layers k)
      rw [hother l s e (by omega), ih (by omega)]

lemma getCost_buildCosts_stable {layers : Nat} :
    ∀ {k' k l : Nat}, k ≤ k' → l ≤ k → ∀ (s e : Char),
      getCost (buildCosts layers k') l s e = getCost (buildCosts layers k) l s e := by
  intro k'
  induction k' with
  | zero =>
      intro k l hk _ s e
      interval_cases k
      rfl
  | succ n ih =>
      intro k l hk hl s e
      rcases Nat.eq_or_lt_of_le hk with rfl | hk'
      · rfl
      · rw [buildCosts]
        obtain ⟨-, -, hother⟩ :=
          getCost_layerStep (n + 1) (by omega) (kbAt_nodup layers (n + 1))
            (buildCosts layers n)
        rw [hother l s e (by omega), ih (by omega) hl]

lemma moveChar_arrow_pos {c : Char} (hc : c ∈ moveChars) :
    ∃ p : Point, mapGet arrowKeyboard c = some p := by
  have := moveChars_in_arrow c hc
  cases h : mapGet arrowKeyboard c with
  | none => rw [h] at this; exact absurd this (by simp)
  | some p => exact ⟨p, rfl⟩

/-- The stored table agrees with the reference recurrence of the design
document on the keys of the layout active at each built layer. -/
lemma table_eq_specCost {N : Nat} :
    ∀ {L : Nat}, 1 ≤ L → L ≤ N → ∀ {s e : Char} {sp ep : Point},
      mapGet (kbAt N L) s = some sp → mapGet (kbAt N L) e = some ep →
      getCost (buildCosts N L) L s e = some (specCost N L s e) := by
  intro L
  induction L with
  | zero => omega
  | succ U ih =>
      intro _ hLN s e sp ep hs he
      rw [buildCosts]
      obtain ⟨h1, -, -⟩ :=
        getCost_layerStep (U + 1) (by omega) (kbAt_nodup N (U + 1)) (buildCosts N U)
      rw [h1 s sp e ep hs he]
      have hspec : specCost N (U + 1) s e =
          groupCost (specCost N U) sp ep ((mapGet (kbAt N (U + 1)) ' ').getD (0, 0)) := by
        rw [specCost, hs, he]
      rw [hspec]
      unfold pairVal
      refine congrArg some (groupCost_congr _ _ _ fun a ha b hb => ?_)
      rcases Nat.eq_zero_or_pos U with rfl | hU
      · rw [buildCosts, getCost_init,
          if_pos ⟨rfl, moveChars_in_arrow a ha, moveChars_in_arrow b hb⟩, specCost]
        rfl
      · have hkbU : kbAt N U = arrowKeyboard := by
          unfold kbAt
          rw [if_neg (by omega)]
        obtain ⟨pa, hpa⟩ := moveChar_arrow_pos ha
        obtain ⟨pb, hpb⟩ := moveChar_arrow_pos hb
        rw [Nat.add_sub_cancel, ih hU (by omega) (hkbU ▸ hpa) (hkbU ▸ hpb)]
        rfl

/- Properties of the reference recurrence. -/

lemma mapGet_mem {α : Type} : ∀ {l : List (Char × α)} {c : Char} {v : α},
    mapGet l c = some v → c ∈ l.map Prod.fst := by
  intro l
  induction l with
  | nil => intro c v h; exact absurd h (by rw [mapGet]; simp)
  | cons kv rest ih =>
      intro c v h
      rw [mapGet_cons kv.1 kv.2] at h
      by_cases hc : c = kv.1
      · rw [List.map_cons]
        exact hc ▸ List.mem_cons_self _ _
      · rw [if_neg hc] at h
        exact List.mem_cons_of_mem _ (ih h)

lemma isSome_exists {α : Type} {o : Option α} (h : o.isSome) : ∃ v, o = some v :=
  Option.isSome_iff_exists.mp h

lemma kbAt_cases (layers layer : Nat) :
    kbAt layers layer = arrowKeyboard ∨ kbAt layers layer = numericKeyboard := by
  unfold kbAt
  split
  · exact Or.inr rfl
  · exact Or.inl rfl

lemma kbAt_arrow {layers layer : Nat} (h : layer ≠ layers) : kbAt layers layer = arrowKeyboard := by
  unfold kbAt
  rw [if_neg h]

lemma kbAt_numeric (layers : Nat) : kbAt layers layers = numericKeyboard := by
  unfold kbAt
  rw [if_pos rfl]

lemma one_le_sumPairs {f : Char → Char → Cost} :
    ∀ {seq : List Char}, seq ≠ [] → (∀ p ∈ pairsFrom 'A' seq, 1 ≤ f p.1 p.2) →
      1 ≤ sumPairs f seq := by
  intro seq hne hf
  match seq with
  | c :: rest =>
      have : sumPairs f (c :: rest) =
          f 'A' c + ((pairsFrom c rest).map fun p => f p.1 p.2).sum := by
        rw [sumPairs, pairsFrom, List.map_cons, List.sum_cons]
      rw [this]
      exact le_trans (hf ('A', c) (by rw [pairsFrom]; exact List.mem_cons_self _ _)) le_self_add

lemma grouping_ne_nil {l1 l2 : List Char} : l1 ++ l2 ++ ['A'] ≠ [] := by simp

lemma specCost_pos {N : Nat} : ∀ {L : Nat}, L ≤ N → ∀ {s e : Char},
    (mapGet (kbAt N L) s).isSome → (mapGet (kbAt N L) e).isSome → 1 ≤ specCost N L s e := by
  intro L
  induction L with
  | zero => intro _ s e _ _; exact le_refl _
  | succ U ih =>
      intro hL s e hs he
      obtain ⟨sp, hsp⟩ := isSome_exists hs
      obtain ⟨ep, hep⟩ := isSome_exists he
      rw [specCost, hsp, hep]
      have harr : kbAt N U = arrowKeyboard := kbAt_arrow (by omega)
      refine le_min ?_ ?_ <;> (split ; · exact le_top)
      · refine one_le_sumPairs grouping_ne_nil fun p hp => ?_
        obtain ⟨h1, h2⟩ := mem_pairsFrom hp
        have hc1 : p.1 ∈ moveChars := by
          rcases List.mem_cons.mp h1 with h1 | h1
          · rw [h1]; decide
          · exact grouping_chars horizontal_chars vertical_chars _ h1
        have hc2 : p.2 ∈ moveChars := grouping_chars horizontal_chars vertical_chars _ h2
        exact ih (by omega) (harr ▸ moveChars_in_arrow _ hc1) (harr ▸ moveChars_in_arrow _ hc2)
      · refine one_le_sumPairs grouping_ne_nil fun p hp => ?_
        obtain ⟨h1, h2⟩ := mem_pairsFrom hp
        have hc1 : p.1 ∈ moveChars := by
          rcases List.mem_cons.mp h1 with h1 | h1
          · rw [h1]; decide
          · exact grouping_chars vertical_chars horizontal_chars _ h1
        have hc2 : p.2 ∈ moveChars := grouping_chars vertical_chars horizontal_chars _ h2
        exact ih (by omega) (harr ▸ moveChars_in_arrow _ hc1) (harr ▸ moveChars_in_arrow _ hc2)

lemma arrow_not_both_blocked :
    ∀ s ∈ arrowKeyboard.map Prod.fst, ∀ e ∈ arrowKeyboard.map Prod.fst,
      (s = ' ' ∧ e = ' ') ∨
      isBlockedPath ((mapGet arrowKeyboard e).getD (0, 0)).1
        ((mapGet arrowKeyboard s).getD (0, 0)).2 ((mapGet arrowKeyboard ' ').getD (0, 0)) = false ∨
      isBlockedPath ((mapGet arrowKeyboard s).getD (0, 0)).1
        ((mapGet arrowKeyboard e).getD (0, 0)).2 ((mapGet arrowKeyboard ' ').getD (0, 0)) = false := by
  decide

lemma numeric_not_both_blocked :
    ∀ s ∈ numericKeyboard.map Prod.fst, ∀ e ∈ numericKeyboard.map Prod.fst,
      (s = ' ' ∧ e = ' ') ∨
      isBlockedPath ((mapGet numericKeyboard e).getD (0, 0)).1
        ((mapGet numericKeyboard s).getD (0, 0)).2
        ((mapGet numericKeyboard ' ').getD (0, 0)) = false ∨
      isBlockedPath ((mapGet numericKeyboard s).getD (0, 0)).1
        ((mapGet numericKeyboard e).getD (0, 0)).2
        ((mapGet numericKeyboard ' ').getD (0, 0)) = false := by
  decide

lemma not_both_blocked {kb : Keyboard} (hkb : kb = arrowKeyboard ∨ kb = numericKeyboard)
    {s e : Char} {sp ep : Point} (hs : mapGet kb s = some sp) (he : mapGet kb e = some ep)
    (hne : ¬(s = ' ' ∧ e = ' ')) :
    isBlockedPath ep.1 sp.2 ((mapGet kb ' ').getD (0, 0)) = false ∨
    isBlockedPath sp.1 ep.2 ((mapGet kb ' ').getD (0, 0)) = false := by
  have hmem_s := mapGet_mem hs
  have hmem_e := mapGet_mem he
  have hgds : (mapGet kb s).getD (0, 0) = sp := by rw [hs]; rfl
  have hgde : (mapGet kb e).getD (0, 0) = ep := by rw [he]; rfl
  rcases hkb with rfl | rfl
  · rcases arrow_not_both_blocked s hmem_s e hmem_e with h | h | h
    · exact absurd h hne
    · exact Or.inl (by rw [← hgds, ← hgde]; exact h)
    · exact Or.inr (by rw [← hgds, ← hgde]; exact h)
  · rcases numeric_not_both_blocked s hmem_s e hmem_e with h | h | h
    · exact absurd h hne
    · exact Or.inl (by rw [← hgds, ← hgde]; exact h)
    · exact Or.inr (by rw [← hgds, ← hgde]; exact h)

lemma sum_ne_top {l : List Cost} (h : ∀ x ∈ l, x ≠ ⊤) : l.sum ≠ ⊤ := by
  induction l with
  | nil => rw [List.sum_nil]; exact WithTop.zero_ne_top
  | cons x xs ih =>
      rw [List.sum_cons]
      exact WithTop.add_ne_top.mpr
        ⟨h x (List.mem_cons_self _ _), ih fun y hy => h y (List.mem_cons_of_mem _ hy)⟩

lemma moveChar_ne_space : ∀ c ∈ moveChars, c ≠ ' ' := by decide

lemma specCost_ne_top {N : Nat} : ∀ {L : Nat}, L ≤ N → ∀ {s e : Char},
    (mapGet (kbAt N L) s).isSome → (mapGet (kbAt N L) e).isSome →
    ¬(s = ' ' ∧ e = ' ') → specCost N L s e ≠ ⊤ := by
  intro L
  induction L with
  | zero =>
      intro _ s e _ _ _
      exact WithTop.one_ne_top
  | succ U ih =>
      intro hL s e hs he hne
      obtain ⟨sp, hsp⟩ := isSome_exists hs
      obtain ⟨ep, hep⟩ := isSome_exists he
      rw [specCost, hsp, hep]
      have harr : kbAt N U = arrowKeyboard := kbAt_arrow (by omega)
      have hsum1 : sumPairs (specCost N U)
          (createMoveSequence (ep.1 - sp.1) '>' '<' ++
            createMoveSequence (ep.2 - sp.2) 'v' '^' ++ ['A']) ≠ ⊤ := by
        refine sum_ne_top fun x hx => ?_
        obtain ⟨p, hp, rfl⟩ := List.mem_map.mp hx
        obtain ⟨h1, h2⟩ := mem_pairsFrom hp
        have hc1 : p.1 ∈ moveChars := by
          rcases List.mem_cons.mp h1 with h1 | h1
          · rw [h1]; decide
          · exact grouping_chars horizontal_chars vertical_chars _ h1
        have hc2 : p.2 ∈ moveChars := grouping_chars horizontal_chars vertical_chars _ h2
        exact ih (by omega) (harr ▸ moveChars_in_arrow _ hc1) (harr ▸ moveChars_in_arrow _ hc2)
          fun hcon => moveChar_ne_space _ hc1 hcon.1
      have hsum2 : sumPairs (specCost N U)
          (createMoveSequence (ep.2 - sp.2) 'v' '^' ++
            createMoveSequence (ep.1 - sp.1) '>' '<' ++ ['A']) ≠ ⊤ := by
        refine sum_ne_top fun x hx => ?_
        obtain ⟨p, hp, rfl⟩ := List.mem_map.mp hx
        obtain ⟨h1, h2⟩ := mem_pairsFrom hp
        have hc1 : p.1 ∈ moveChars := by
          rcases List.mem_cons.mp h1 with h1 | h1
          · rw [h1]; decide
          · exact grouping_chars vertical_chars horizontal_chars _ h1
        have hc2 : p.2 ∈ moveChars := grouping_chars vertical_chars horizontal_chars _ h2
        exact ih (by omega) (harr ▸ moveChars_in_arrow _ hc1) (harr ▸ moveChars_in_arrow _ hc2)
          fun hcon => moveChar_ne_space _ hc1 hcon.1
      show groupCost (specCost N U) sp ep ((mapGet (kbAt N (U + 1)) ' ').getD (0, 0)) ≠ ⊤
      unfold groupCost
      rcases not_both_blocked (kbAt_cases N (U + 1)) hsp hep hne with hb | hb
      · intro htop
        have hle := htop ▸ min_le_left
          (if isBlockedPath ep.1 sp.2 ((mapGet (kbAt N (U + 1)) ' ').getD (0, 0)) then (⊤ : Cost)
           else sumPairs (specCost N U)
             (createMoveSequence (ep.1 - sp.1) '>' '<' ++
               createMoveSequence (ep.2 - sp.2) 'v' '^' ++ ['A']))
          (if isBlockedPath sp.1 ep.2 ((mapGet (kbAt N (U + 1)) ' ').getD (0, 0)) then (⊤ : Cost)
           else sumPairs (specCost N U)
             (createMoveSequence (ep.2 - sp.2) 'v' '^' ++
               createMoveSequence (ep.1 - sp.1) '>' '<' ++ ['A']))
        rw [if_neg (by rw [hb]; exact Bool.false_ne_true)] at hle
        exact hsum1 (top_le_iff.mp hle)
      · intro htop
        have hle := htop ▸ min_le_right
          (if isBlockedPath ep.1 sp.2 ((mapGet (kbAt N (U + 1)) ' ').getD (0, 0)) then (⊤ : Cost)
           else sumPairs (specCost N U)
             (createMoveSequence (ep.1 - sp.1) '>' '<' ++
               createMoveSequence (ep.2 - sp.2) 'v' '^' ++ ['A']))
          (if isBlockedPath sp.1 ep.2 ((mapGet (kbAt N (U + 1)) ' ').getD (0, 0)) then (⊤ : Cost)
           else sumPairs (specCost N U)
             (createMoveSequence (ep.2 - sp.2) 'v' '^' ++
               createMoveSequence (ep.1 - sp.1) '>' '<' ++ ['A']))
        rw [if_neg (by rw [hb]; exact Bool.false_ne_true)] at hle
        exact hsum2 (top_le_iff.mp hle)

lemma groupCost_gap (f : Char → Char → Cost) (gp : Point) : groupCost f gp gp gp = ⊤ := by
  unfold groupCost isBlockedPath
  simp

lemma specCost_space {N : Nat} : ∀ {L : Nat}, 1 ≤ L → L ≤ N → specCost N L ' ' ' ' = ⊤ := by
  intro L h1 hL
  match L, h1 with
  | U + 1, _ =>
      by_cases hN : U + 1 = N
      · have hk : kbAt N (U + 1) = numericKeyboard := by unfold kbAt; rw [if_pos hN]
        have hsp : mapGet (kbAt N (U + 1)) ' ' = some ((0 : Int), (3 : Int)) := by
          rw [hk]; decide
        rw [specCost, hsp]
        exact groupCost_gap _ _
      · have hk : kbAt N (U + 1) = arrowKeyboard := kbAt_arrow hN
        have hsp : mapGet (kbAt N (U + 1)) ' ' = some ((0 : Int), (0 : Int)) := by
          rw [hk]; decide
        rw [specCost, hsp]
        exact groupCost_gap _ _

lemma specCost_stable : ∀ {L N N' : Nat}, L < N → L < N' → ∀ (s e : Char),
    specCost N L s e = specCost N' L s e := by
  intro L
  induction L with
  | zero => intro N N' _ _ s e; rfl
  | succ U ih =>
      intro N N' hN hN' s e
      have hkb : kbAt N (U + 1) = arrowKeyboard := kbAt_arrow (by omega)
      have hkb' : kbAt N' (U + 1) = arrowKeyboard := kbAt_arrow (by omega)
      have hfun : specCost N U = specCost N' U :=
        funext fun a => funext fun b => ih (by omega) (by omega) a b
      rw [specCost, specCost, hkb, hkb', hfun]

lemma specCost_mono : ∀ (k : Nat) {a b : Char},
    (mapGet arrowKeyboard a).isSome → (mapGet arrowKeyboard b).isSome →
    specCost (k + 1) k a b ≤ specCost (k + 2) (k + 1) a b := by
  intro k
  induction k with
  | zero =>
      intro a b ha hb
      have hkb : kbAt 2 1 = arrowKeyboard := kbAt_arrow (by omega)
      exact specCost_pos (N := 2) (by omega) (hkb ▸ ha) (hkb ▸ hb)
  | succ k ih =>
      intro a b ha hb
      obtain ⟨pa, hpa⟩ := isSome_exists ha
      obtain ⟨pb, hpb⟩ := isSome_exists hb
      have hkb1 : kbAt (k + 2) (k + 1) = arrowKeyboard := kbAt_arrow (by omega)
      have hkb2 : kbAt (k + 3) (k + 2) = arrowKeyboard := kbAt_arrow (by omega)
      rw [specCost, specCost, hkb1, hkb2, hpa, hpb]
      refine groupCost_mono _ _ _ fun c hc d hd => ?_
      have hcs := moveChars_in_arrow c hc
      have hds := moveChars_in_arrow d hd
      calc specCost (k + 2) k c d
          = specCost (k + 1) k c d := specCost_stable (by omega) (by omega) c d
        _ ≤ specCost (k + 2) (k + 1) c d := ih hcs hds
        _ = specCost (k + 3) (k + 1) c d := specCost_stable (by omega) (by omega) c d

lemma arrow_symbol_pos_ne_gap :
    ∀ s ∈ arrowKeyboard.map Prod.fst, s = ' ' ∨
      (mapGet arrowKeyboard s).getD (0, 0) ≠ (mapGet arrowKeyboard ' ').getD (0, 0) := by
  decide

lemma numeric_symbol_pos_ne_gap :
    ∀ s ∈ numericKeyboard.map Prod.fst, s = ' ' ∨
      (mapGet numericKeyboard s).getD (0, 0) ≠ (mapGet numericKeyboard ' ').getD (0, 0) := by
  decide

lemma isBlockedPath_false {x y : Int} {gp : Point} (h : gp ≠ (x, y)) :
    isBlockedPath x y gp = false := by
  unfold isBlockedPath
  simp only [decide_eq_false_iff_not]
  rintro ⟨h1, h2⟩
  exact h (Prod.ext h1 h2)

lemma sumPairs_single (f : Char → Char → Cost) : sumPairs f ['A'] = f 'A' 'A' := by
  rw [sumPairs, pairsFrom, pairsFrom, List.map_cons, List.map_nil, List.sum_cons, List.sum_nil,
    add_zero]

lemma specCost_diag {N : Nat} : ∀ {L : Nat}, 1 ≤ L → L ≤ N → ∀ {s : Char},
    (mapGet (kbAt N L) s).isSome → s ≠ ' ' → specCost N L s s = 1 := by
  intro L
  induction L with
  | zero => omega
  | succ U ih =>
      intro _ hL s hs hsne
      obtain ⟨sp, hsp⟩ := isSome_exists hs
      have hmem := mapGet_mem hsp
      have hgd : (mapGet (kbAt N (U + 1)) s).getD (0, 0) = sp := by rw [hsp]; rfl
      have hne_gap : sp ≠ (mapGet (kbAt N (U + 1)) ' ').getD (0, 0) := by
        rcases kbAt_cases N (U + 1) with hk | hk
        · rcases arrow_symbol_pos_ne_gap s (hk ▸ hmem) with h | h
          · exact absurd h hsne
          · rw [hk, ← hgd, hk]
            exact h
        · rcases numeric_symbol_pos_ne_gap s (hk ▸ hmem) with h | h
          · exact absurd h hsne
          · rw [hk, ← hgd, hk]
            exact h
      rw [specCost, hsp]
      show groupCost (specCost N U) sp sp ((mapGet (kbAt N (U + 1)) ' ').getD (0, 0)) = 1
      unfold groupCost
      have hz : sp.1 - sp.1 = 0 := sub_self _
      have hz2 : sp.2 - sp.2 = 0 := sub_self _
      rw [hz, hz2]
      have hmv : createMoveSequence 0 '>' '<' = [] := rfl
      have hmv2 : createMoveSequence 0 'v' '^' = [] := rfl
      rw [hmv, hmv2]
      have hbl : isBlockedPath sp.1 sp.2 ((mapGet (kbAt N (U + 1)) ' ').getD (0, 0)) = false := by
        refine isBlockedPath_false fun hgap => ?_
        exact hne_gap (by rw [hgap])
      rw [if_neg (by rw [hbl]; exact Bool.false_ne_true)]
      have hseq : ([] : List Char) ++ [] ++ ['A'] = ['A'] := rfl
      rw [hseq, sumPairs_single, min_self]
      rcases Nat.eq_zero_or_pos U with rfl | hU
      · rfl
      · have harr : kbAt N U = arrowKeyboard := kbAt_arrow (by omega)
        exact ih hU (by omega) (harr ▸ (by decide : (mapGet arrowKeyboard 'A').isSome))
          (by decide)

/-- The engine's total for a numeric-keyboard sequence agrees with the
reference total of the design document, for every depth `N ≥ 1`. -/
lemma count_eq_specTotal {N : Nat} (hN : 1 ≤ N) {seq : List Char}
    (hseq : ∀ c ∈ seq, (mapGet numericKeyboard c).isSome) :
    countMinimalKeyPresses seq N = specTotal N seq := by
  rw [countMinimalKeyPresses, countTotalPresses_eq_sumPairs, specTotal]
  refine sumPairs_congr fun p hp => ?_
  obtain ⟨h1, h2⟩ := mem_pairsFrom hp
  have hkbN : kbAt N N = numericKeyboard := kbAt_numeric N
  have hp1 : (mapGet numericKeyboard p.1).isSome := by
    rcases List.mem_cons.mp h1 with h1 | h1
    · rw [h1]; decide
    · exact hseq _ h1
  have hp2 : (mapGet numericKeyboard p.2).isSome := hseq _ h2
  obtain ⟨sp, hsp⟩ := isSome_exists hp1
  obtain ⟨ep, hep⟩ := isSome_exists hp2
  rw [table_eq_specCost hN (le_refl N) (s := p.1) (e := p.2) (hkbN ▸ hsp) (hkbN ▸ hep)]
  rfl

/- Lemmas about the brute-force expansion. -/

lemma listMin_nil : listMin [] = ⊤ := rfl

lemma listMin_cons (x : Cost) (l : List Cost) : listMin (x :: l) = min x (listMin l) := rfl

lemma min_top_r (x : Cost) : min x ⊤ = x := min_eq_left le_top

lemma min_top_l (x : Cost) : min ⊤ x = x := min_eq_right le_top

lemma listMin_two (x y : Cost) : listMin [x, y] = min x y := by
  rw [listMin, List.foldr_cons, List.foldr_cons, List.foldr_nil, min_top_r]

lemma listMin_append : ∀ (l1 l2 : List Cost), listMin (l1 ++ l2) = min (listMin l1) (listMin l2)
  | [], l2 => by rw [List.nil_append, listMin_nil, min_top_l]
  | x :: l1, l2 => by
      rw [List.cons_append, listMin_cons, listMin_cons, listMin_append l1 l2, min_assoc]

lemma add_min_distrib (c x y : Cost) : c + min x y = min (c + x) (c + y) := by
  rcases le_total x y with h | h
  · rw [min_eq_left h, min_eq_left (add_le_add_left h c)]
  · rw [min_eq_right h, min_eq_right (add_le_add_left h c)]

lemma min_add_distrib (x y c : Cost) : min x y + c = min (x + c) (y + c) := by
  rcases le_total x y with h | h
  · rw [min_eq_left h, min_eq_left (add_le_add_right h c)]
  · rw [min_eq_right h, min_eq_right (add_le_add_right h c)]

lemma listMin_map_add_left {α : Type} (c : Cost) (f : α → Cost) :
    ∀ l : List α, listMin (l.map fun x => c + f x) = c + listMin (l.map f)
  | [] => by rw [List.map_nil, List.map_nil, listMin_nil, add_top]
  | x :: l => by
      rw [List.map_cons, List.map_cons, listMin_cons, listMin_cons,
        listMin_map_add_left c f l, add_min_distrib]

lemma listMin_product_congr {α β : Type} (F : α → β → Cost) (f : α → Cost) (g : β → Cost) :
    ∀ (la : List α) (lb : List β), (∀ a ∈ la, ∀ b ∈ lb, F a b = f a + g b) →
      listMin (la.flatMap fun a => lb.map fun b => F a b) =
        listMin (la.map f) + listMin (lb.map g)
  | [], lb, _ => by rw [List.flatMap_nil, List.map_nil, listMin_nil, top_add]
  | a :: la, lb, h => by
      rw [List.flatMap_cons, listMin_append, List.map_cons, listMin_cons,
        listMin_product_congr F f g la lb fun a' ha' b hb =>
          h a' (List.mem_cons_of_mem _ ha') b hb,
        List.map_congr_left fun b hb => h a (List.mem_cons_self _ _) b hb,
        listMin_map_add_left (f a) g lb, min_add_distrib]

lemma pairsFrom_append : ∀ (p : Char) (s1 s2 : List Char),
    pairsFrom p (s1 ++ s2) = pairsFrom p s1 ++ pairsFrom (s1.getLastD p) s2
  | p, [], s2 => by rw [List.nil_append, pairsFrom, List.nil_append]; rfl
  | p, c :: s1, s2 => by
      rw [List.cons_append, pairsFrom, pairsFrom, pairsFrom_append c s1 s2, List.cons_append,
        List.getLastD_cons]

lemma grouping_endsA {kb : Keyboard} {s e : Char} {g : List Char}
    (hg : g ∈ validGroupings kb s e) : ∃ t, g = t ++ ['A'] := by
  unfold validGroupings at hg
  split at hg
  · rcases List.mem_append.mp hg with hg | hg <;> (split at hg)
    · exact absurd hg (List.not_mem_nil g)
    · exact ⟨_, List.mem_singleton.mp hg⟩
    · exact absurd hg (List.not_mem_nil g)
    · exact ⟨_, List.mem_singleton.mp hg⟩
  · exact absurd hg (List.not_mem_nil g)

lemma bruteMin_nil {N : Nat} : ∀ L : Nat, bruteMin N L [] = 0
  | 0 => rfl
  | L + 1 => by
      rw [bruteMin]
      have : expansions (kbAt N (L + 1)) [] = [[]] := rfl
      rw [this, List.map_cons, List.map_nil, listMin_cons, listMin_nil, min_top_r,
        bruteMin_nil L]

/-- Given additivity of `bruteMin` at layer `L`, the minimum over all full
expansions of a transition list is the sum over the transitions of the minimum
over the valid groupings of each. -/
lemma expand_sum {N L : Nat} (kb : Keyboard)
    (hadd : ∀ (s1 s2 : List Char), (∃ t, s1 = t ++ ['A']) →
      bruteMin N L (s1 ++ s2) = bruteMin N L s1 + bruteMin N L s2) :
    ∀ P : List (Char × Char),
      listMin ((expandChoices kb P).map (bruteMin N L)) =
        (P.map fun p => listMin ((validGroupings kb p.1 p.2).map (bruteMin N L))).sum
  | [] => by
      rw [expandChoices, List.map_cons, List.map_nil, listMin_cons, listMin_nil, min_top_r,
        bruteMin_nil L, List.map_nil, List.sum_nil]
  | p :: P => by
      rw [expandChoices, List.map_flatMap]
      have hmm : (fun g => ((expandChoices kb P).map fun e => g ++ e).map (bruteMin N L)) =
          fun g => (expandChoices kb P).map fun e => bruteMin N L (g ++ e) := by
        funext g
        rw [List.map_map]
        rfl
      rw [hmm,
        listMin_product_congr (fun g e => bruteMin N L (g ++ e)) (bruteMin N L) (bruteMin N L)
          (validGroupings kb p.1 p.2) (expandChoices kb P)
          (fun g hg e _ => hadd g e (grouping_endsA hg)),
        List.map_cons, List.sum_cons, expand_sum kb hadd P]

lemma bruteAdd {N : Nat} : ∀ (L : Nat) (s1 s2 : List Char), (∃ t, s1 = t ++ ['A']) →
    bruteMin N L (s1 ++ s2) = bruteMin N L s1 + bruteMin N L s2
  | 0, s1, s2, _ => by
      rw [bruteMin, bruteMin, bruteMin, List.length_append, Nat.cast_add]
  | L + 1, s1, s2, hA => by
      obtain ⟨t, rfl⟩ := hA
      have hlast : (t ++ ['A']).getLastD 'A' = 'A' := List.getLastD_concat _ _ _
      have hsplit : pairsFrom 'A' ((t ++ ['A']) ++ s2) =
          pairsFrom 'A' (t ++ ['A']) ++ pairsFrom 'A' s2 := by
        rw [pairsFrom_append, hlast]
      rw [bruteMin, bruteMin, bruteMin, expansions, expansions, expansions, hsplit,
        expand_sum (kbAt N (L + 1)) (bruteAdd L), expand_sum (kbAt N (L + 1)) (bruteAdd L),
        expand_sum (kbAt N (L + 1)) (bruteAdd L), List.map_append, List.sum_append]

lemma bruteMin_succ {N L : Nat} (seq : List Char) :
    bruteMin N (L + 1) seq =
      sumPairs (fun a b => listMin ((validGroupings (kbAt N (L + 1)) a b).map (bruteMin N L)))
        seq := by
  rw [bruteMin, expansions, expand_sum (kbAt N (L + 1)) (bruteAdd L), sumPairs]

lemma listMin_validGroupings {kb : Keyboard} {s e : Char} {sp ep : Point}
    (hs : mapGet kb s = some sp) (he : mapGet kb e = some ep) (f : List Char → Cost) :
    listMin ((validGroupings kb s e).map f) =
      min
        (if isBlockedPath ep.1 sp.2 ((mapGet kb ' ').getD (0, 0)) then ⊤
         else f (createMoveSequence (ep.1 - sp.1) '>' '<' ++
           createMoveSequence (ep.2 - sp.2) 'v' '^' ++ ['A']))
        (if isBlockedPath sp.1 ep.2 ((mapGet kb ' ').getD (0, 0)) then ⊤
         else f (createMoveSequence (ep.2 - sp.2) 'v' '^' ++
           createMoveSequence (ep.1 - sp.1) '>' '<' ++ ['A'])) := by
  unfold validGroupings
  rw [hs, he]
  show listMin (List.map f
      ((if isBlockedPath ep.1 sp.2 ((mapGet kb ' ').getD (0, 0)) then []
        else [createMoveSequence (ep.1 - sp.1) '>' '<' ++
          createMoveSequence (ep.2 - sp.2) 'v' '^' ++ ['A']]) ++
       (if isBlockedPath sp.1 ep.2 ((mapGet kb ' ').getD (0, 0)) then []
        else [createMoveSequence (ep.2 - sp.2) 'v' '^' ++
          createMoveSequence (ep.1 - sp.1) '>' '<' ++ ['A']]))) = _
  cases hb1 : isBlockedPath ep.1 sp.2 ((mapGet kb ' ').getD (0, 0)) <;>
    cases hb2 : isBlockedPath sp.1 ep.2 ((mapGet kb ' ').getD (0, 0))
  · exact listMin_two _ _
  · rfl
  · exact (min_top_r _).trans (min_top_l _).symm
  · exact (min_self _).symm

lemma bTrans_eq_spec {N : Nat} : ∀ {L : Nat}, 1 ≤ L → L ≤ N → ∀ {s e : Char} {sp ep : Point},
    mapGet (kbAt N L) s = some sp → mapGet (kbAt N L) e = some ep →
    listMin ((validGroupings (kbAt N L) s e).map (bruteMin N (L - 1))) = specCost N L s e := by
  intro L
  induction L with
  | zero => omega
  | succ U ih =>
      intro _ hL s e sp ep hs he
      rw [Nat.add_sub_cancel, listMin_validGroupings hs he]
      have hspec : specCost N (U + 1) s e =
          groupCost (specCost N U) sp ep ((mapGet (kbAt N (U + 1)) ' ').getD (0, 0)) := by
        rw [specCost, hs, he]
      rw [hspec]
      unfold groupCost
      have hbrute : ∀ g : List Char, (∀ c ∈ g, c ∈ moveChars) →
          bruteMin N U g = sumPairs (specCost N U) g := by
        intro g hg
        rcases Nat.eq_zero_or_pos U with rfl | hU
        · rw [bruteMin, ← sumPairs_one g]
          rfl
        · obtain ⟨V, rfl⟩ : ∃ V, U = V + 1 := ⟨U - 1, by omega⟩
          rw [bruteMin_succ]
          refine sumPairs_congr fun p hp => ?_
          obtain ⟨hm1, hm2⟩ := mem_pairsFrom hp
          have hc1 : p.1 ∈ moveChars := by
            rcases List.mem_cons.mp hm1 with hm1 | hm1
            · rw [hm1]; decide
            · exact hg _ hm1
          have hc2 : p.2 ∈ moveChars := hg _ hm2
          have harr : kbAt N (V + 1) = arrowKeyboard := kbAt_arrow (by omega)
          obtain ⟨pa, hpa⟩ := isSome_exists (moveChars_in_arrow _ hc1)
          obtain ⟨pb, hpb⟩ := isSome_exists (moveChars_in_arrow _ hc2)
          have hpa' : mapGet (kbAt N (V + 1)) p.1 = some pa := by rw [harr]; exact hpa
          have hpb' : mapGet (kbAt N (V + 1)) p.2 = some pb := by rw [harr]; exact hpb
          have hres := ih (by omega) (by omega) hpa' hpb'
          rw [Nat.add_sub_cancel] at hres
          exact hres
      congr 1
      · split
        · rfl
        · exact hbrute _ (grouping_chars horizontal_chars vertical_chars)
      · split
        · rfl
        · exact hbrute _ (grouping_chars vertical_chars horizontal_chars)

/-- The brute-force minimal expansion length equals the reference total for
every depth `N ≥ 1` and numeric-keyboard sequence. -/
lemma brute_eq_specTotal {N : Nat} (hN : 1 ≤ N) {seq : List Char}
    (hseq : ∀ c ∈ seq, (mapGet numericKeyboard c).isSome) :
    bruteMin N N seq = specTotal N seq := by
  obtain ⟨M, rfl⟩ : ∃ M, N = M + 1 := ⟨N - 1, by omega⟩
  rw [bruteMin_succ, specTotal]
  refine sumPairs_congr fun p hp => ?_
  obtain ⟨h1, h2⟩ := mem_pairsFrom hp
  have hkbN : kbAt (M + 1) (M + 1) = numericKeyboard := kbAt_numeric _
  have hp1 : (mapGet numericKeyboard p.1).isSome := by
    rcases List.mem_cons.mp h1 with h1 | h1
    · rw [h1]; decide
    · exact hseq _ h1
  obtain ⟨sp, hsp⟩ := isSome_exists hp1
  obtain ⟨ep, hep⟩ := isSome_exists (hseq _ h2)
  have hres := bTrans_eq_spec (N := M + 1) (by omega) (le_refl _) (hkbN ▸ hsp) (hkbN ▸ hep)
  rw [Nat.add_sub_cancel] at hres
  exact hres

/- Depth-0 behaviour and monotonicity helpers. -/

lemma sumPairs_singleton (f : Char → Char → Cost) (c : Char) : sumPairs f [c] = f 'A' c := by
  rw [sumPairs, pairsFrom, pairsFrom, List.map_cons, List.map_nil, List.sum_cons, List.sum_nil,
    add_zero]

lemma count_zero (seq : List Char) :
    countMinimalKeyPresses seq 0 =
      sumPairs (fun a b => (getCost (initMovements arrowKeyboard) 0 a b).getD 0) seq := by
  rw [countMinimalKeyPresses, countTotalPresses_eq_sumPairs]
  rfl

lemma sum_ite_one {α : Type} (P : α → Bool) :
    ∀ l : List α, (l.map fun x => if P x then (1 : Cost) else 0).sum =
      ((l.filter P).length : Cost)
  | [] => by rw [List.map_nil, List.sum_nil, List.filter_nil, List.length_nil, Nat.cast_zero]
  | x :: l => by
      rw [List.map_cons, List.sum_cons, List.filter_cons, sum_ite_one P l]
      by_cases h : P x
      · rw [if_pos h, if_pos h, List.length_cons, Nat.cast_add_one, add_comm]
      · rw [if_neg h, if_neg h, zero_add]

lemma init_getD (a b : Char) :
    (getCost (initMovements arrowKeyboard) 0 a b).getD 0 =
      if ((mapGet arrowKeyboard a).isSome && (mapGet arrowKeyboard b).isSome) then (1 : Cost)
      else 0 := by
  rw [getCost_init]
  by_cases ha : (mapGet arrowKeyboard a).isSome <;>
    by_cases hb : (mapGet arrowKeyboard b).isSome <;>
    simp [ha, hb]

/-- At depth 0 the engine counts exactly the transitions of `"A" + sequence`
whose both symbols are keys of the arrow layout (the only layer-0 entries). -/
lemma count_zero_filter (seq : List Char) :
    countMinimalKeyPresses seq 0 =
      (((pairsFrom 'A' seq).filter fun p =>
        (mapGet arrowKeyboard p.1).isSome && (mapGet arrowKeyboard p.2).isSome).length : Cost) := by
  rw [count_zero, sumPairs]
  rw [List.map_congr_left fun p _ => init_getD p.1 p.2]
  exact sum_ite_one _ _

lemma init_le_spec_one :
    ∀ a ∈ numericSymbols, ∀ b ∈ numericSymbols,
      (getCost (initMovements arrowKeyboard) 0 a b).getD 0 ≤ specCost 1 1 a b := by
  decide

lemma specCost_top_mono (M : Nat) {a b : Char}
    (ha : (mapGet numericKeyboard a).isSome) (hb : (mapGet numericKeyboard b).isSome) :
    specCost (M + 1) (M + 1) a b ≤ specCost (M + 2) (M + 2) a b := by
  obtain ⟨sp, hsp⟩ := isSome_exists ha
  obtain ⟨ep, hep⟩ := isSome_exists hb
  have h1 : kbAt (M + 1) (M + 1) = numericKeyboard := kbAt_numeric _
  have h2 : kbAt (M + 2) (M + 2) = numericKeyboard := kbAt_numeric _
  have hsp1 : mapGet (kbAt (M + 1) (M + 1)) a = some sp := by rw [h1]; exact hsp
  have hep1 : mapGet (kbAt (M + 1) (M + 1)) b = some ep := by rw [h1]; exact hep
  have hsp2 : mapGet (kbAt (M + 2) (M + 2)) a = some sp := by rw [h2]; exact hsp
  have hep2 : mapGet (kbAt (M + 2) (M + 2)) b = some ep := by rw [h2]; exact hep
  rw [specCost, specCost, hsp1, hep1, hsp2, hep2, h1, h2]
  refine groupCost_mono _ _ _ fun c hc d hd => ?_
  exact specCost_mono M (moveChars_in_arrow _ hc) (moveChars_in_arrow _ hd)

lemma numericSymbols_hasA : 'A' ∈ numericSymbols := by decide

/-- Monotonicity of the engine's total in the chain depth, for sequences over
the numeric symbols. -/
lemma count_mono {seq : List Char} (hseq : ∀ c ∈ seq, c ∈ numericSymbols) (N : Nat) :
    countMinimalKeyPresses seq N ≤ countMinimalKeyPresses seq (N + 1) := by
  have hsome : ∀ c ∈ seq, (mapGet numericKeyboard c).isSome := fun c hc =>
    numericSymbols_in_numeric c (hseq c hc)
  have hmem : ∀ p ∈ pairsFrom 'A' seq, p.1 ∈ numericSymbols ∧ p.2 ∈ numericSymbols := by
    intro p hp
    obtain ⟨h1, h2⟩ := mem_pairsFrom hp
    refine ⟨?_, hseq _ h2⟩
    rcases List.mem_cons.mp h1 with h1 | h1
    · exact h1 ▸ numericSymbols_hasA
    · exact hseq _ h1
  rcases Nat.eq_zero_or_pos N with rfl | hN
  · rw [count_zero, count_eq_specTotal (by omega) hsome, specTotal]
    refine sumPairs_mono fun p hp => ?_
    obtain ⟨h1, h2⟩ := hmem p hp
    exact init_le_spec_one _ h1 _ h2
  · obtain ⟨M, rfl⟩ : ∃ M, N = M + 1 := ⟨N - 1, by omega⟩
    rw [count_eq_specTotal (by omega) hsome, count_eq_specTotal (by omega) hsome,
      specTotal, specTotal]
    refine sumPairs_mono fun p hp => ?_
    obtain ⟨h1, h2⟩ := hmem p hp
    exact specCost_top_mono M (numericSymbols_in_numeric _ h1) (numericSymbols_in_numeric _ h2)

lemma innerFold_writesAt (layer : Nat) (kb : Keyboard) (se : Char × Point) {base : CostMap} :
    ∀ (rest : List (Char × Point)) (acc : CostMap), WritesAt layer base acc →
      WritesAt layer base
        (rest.foldl
          (fun acc2 ee => setCost acc2 layer se.1 ee.1 (entryVal layer kb se ee acc2)) acc)
  | [], _, h => h
  | _ :: rest, _acc, h => innerFold_writesAt layer kb se rest _ (writesAt_set h _ _ _)

lemma layerStep_writesAt (layer : Nat) (kb : Keyboard) (m : CostMap) :
    WritesAt layer m (layerStep layer kb m) := by
  rw [layerStep_eq]
  suffices h : ∀ (rest : List (Char × Point)) (acc : CostMap), WritesAt layer m acc →
      WritesAt layer m
        (rest.foldl
          (fun acc1 se =>
            kb.foldl
              (fun acc2 ee => setCost acc2 layer se.1 ee.1 (entryVal layer kb se ee acc2)) acc1)
          acc) from
    h kb m (writesAt_self _ _)
  intro rest
  induction rest with
  | nil => intro acc h; exact h
  | cons se rest ih => intro acc h; exact ih _ (innerFold_writesAt layer kb se kb acc h)

/- The ten claims. -/

/-- C1: for every target sequence over the numeric layout's symbols and every
chain depth N ≥ 1, `countMinimalKeyPresses(sequence, N)` equals the reference
definition: the table `cost[L][s][e]` is built for L = 1..N as the minimum over
valid groupings g of the sum of `cost[L-1][a][b]` over consecutive pairs of
`"A" + g` (with `cost[0]` constant 1), and the result is the sum, over
consecutive pairs of `"A" + sequence`, of `cost[N][a][b]` — here `specTotal`
built from `specCost`. -/
theorem count_matches_reference :
    ∀ seq : List Char, (∀ c ∈ seq, c ∈ numericSymbols) →
      ∀ N : Nat, 1 ≤ N → countMinimalKeyPresses seq N = specTotal N seq := by
  intro seq hseq N hN
  exact count_eq_specTotal hN fun c hc => numericSymbols_in_numeric c (hseq c hc)

/-- Witness for C1: the sequence "029A" at depth 2. -/
theorem count_matches_reference_witness :
    countMinimalKeyPresses ['0', '2', '9', 'A'] 2 = specTotal 2 ['0', '2', '9', 'A'] :=
  count_matches_reference ['0', '2', '9', 'A'] (by decide) 2 (by decide)

/-- C2 counterexample: the claim quantifies over every chain depth N ≤ 3, but at
depth 0 the table-based cost of "029A" is 0 while the brute-force expansion
through 0 layers is the sequence itself, of length 4. -/
theorem brute_force_refinement_counterexample :
    countMinimalKeyPresses ['0', '2', '9', 'A'] 0 ≠ bruteMin 0 0 ['0', '2', '9', 'A'] := by
  decide

/-- C2 amended: for every chain depth 1 ≤ N ≤ 3 and every target sequence over
the numeric layout's symbols, the table-based cost equals the length of the
minimal fully expanded bottom-layer sequence obtained by brute-force expansion
through all N layers; in particular, target "029A" at depth 3 gives the known
reference press count 68. -/
theorem brute_force_refinement :
    (∀ seq : List Char, (∀ c ∈ seq, c ∈ numericSymbols) →
      ∀ N : Nat, 1 ≤ N → N ≤ 3 → countMinimalKeyPresses seq N = bruteMin N N seq) ∧
    countMinimalKeyPresses ['0', '2', '9', 'A'] 3 = 68 := by
  constructor
  · intro seq hseq N hN _
    have hsome : ∀ c ∈ seq, (mapGet numericKeyboard c).isSome := fun c hc =>
      numericSymbols_in_numeric c (hseq c hc)
    rw [count_eq_specTotal hN hsome, brute_eq_specTotal hN hsome]
  · decide

/-- Witness for C2: "029A" at depth 3 matches the brute force and equals 68. -/
theorem brute_force_refinement_witness :
    countMinimalKeyPresses ['0', '2', '9', 'A'] 3 = bruteMin 3 3 ['0', '2', '9', 'A'] ∧
    countMinimalKeyPresses ['0', '2', '9', 'A'] 3 = 68 :=
  ⟨brute_force_refinement.1 ['0', '2', '9', 'A'] (by decide) 3 (by decide) (by decide),
    brute_force_refinement.2⟩

/-- C3 counterexample: at depth 0 the cost of "179A" is not the sequence length
4 — the layer-0 table only holds arrow-keyboard pairs, so every transition of
"A179A" is missing and silently skipped, giving 0. -/
theorem depth_zero_counterexample :
    countMinimalKeyPresses ['1', '7', '9', 'A'] 0 ≠
      ((['1', '7', '9', 'A'].length : ℕ) : Cost) := by
  decide

/-- C3 amended: for chain depth 0, `countMinimalKeyPresses(sequence, 0)` counts
only the consecutive transitions of `"A" + sequence` whose both symbols are
keys of the arrow layout (the only layer-0 entries, each of cost 1); for the
numeric target "179A" no transition qualifies and the result is 0, not 4. -/
theorem depth_zero_behavior :
    (∀ seq : List Char, countMinimalKeyPresses seq 0 =
      ((((pairsFrom 'A' seq).filter fun p =>
        (mapGet arrowKeyboard p.1).isSome && (mapGet arrowKeyboard p.2).isSome)).length :
          Cost)) ∧
    countMinimalKeyPresses ['1', '7', '9', 'A'] 0 = 0 :=
  ⟨count_zero_filter, by decide⟩

/-- C4 counterexample: for the sequence "Z", whose symbol is on no layout, the
cost computation does not fail — it returns the ordinary value 0, silently
skipping the unknown transition instead of propagating any error. -/
theorem unknown_symbol_counterexample : countMinimalKeyPresses ['Z'] 3 = 0 := by
  decide

/-- C4 amended: a symbol outside the active layout's alphabet does not make the
computation fail; the table holds no entry for any transition to or from it, and
`countTotalPresses` silently skips such transitions (contributing 0), so the
cost of the one-symbol sequence is the ordinary value 0 — no error is raised or
propagated to the caller. -/
theorem unknown_symbol_behavior :
    ∀ (c : Char) (N : Nat), 1 ≤ N → mapGet numericKeyboard c = none →
      (∀ a : Char, getCost (buildCosts N N) N a c = none ∧
        getCost (buildCosts N N) N c a = none) ∧
      countMinimalKeyPresses [c] N = 0 := by
  intro c N hN hc
  obtain ⟨M, rfl⟩ : ∃ M, N = M + 1 := ⟨N - 1, by omega⟩
  have hcheck : mapGet (kbAt (M + 1) (M + 1)) c = none := by
    rw [kbAt_numeric]
    exact hc
  have hentry : ∀ a : Char, getCost (buildCosts (M + 1) (M + 1)) (M + 1) a c = none ∧
      getCost (buildCosts (M + 1) (M + 1)) (M + 1) c a = none := by
    intro a
    constructor
    · rw [buildCosts]
      obtain ⟨-, h2, -⟩ := getCost_layerStep (M + 1) (by omega)
        (kbAt_nodup (M + 1) (M + 1)) (buildCosts (M + 1) M)
      rw [h2 a c (Or.inr hcheck), getCost_buildCosts_above (by omega)]
    · rw [buildCosts]
      obtain ⟨-, h2, -⟩ := getCost_layerStep (M + 1) (by omega)
        (kbAt_nodup (M + 1) (M + 1)) (buildCosts (M + 1) M)
      rw [h2 c a (Or.inl hcheck), getCost_buildCosts_above (by omega)]
  refine ⟨hentry, ?_⟩
  rw [countMinimalKeyPresses, countTotalPresses_eq_sumPairs, sumPairs_singleton,
    (hentry 'A').1]
  rfl

/-- Witness for C4: the symbol 'Z' at depth 2. -/
theorem unknown_symbol_behavior_witness :
    mapGet numericKeyboard 'Z' = none ∧ countMinimalKeyPresses ['Z'] 2 = 0 :=
  ⟨by decide, (unknown_symbol_behavior 'Z' 2 (by decide) (by decide)).2⟩

/-- C5: for every fixed target sequence over the numeric layout's symbols, the
total cost is non-decreasing in the chain depth N. -/
theorem cost_monotone_in_depth :
    ∀ seq : List Char, (∀ c ∈ seq, c ∈ numericSymbols) →
      ∀ N : Nat, countMinimalKeyPresses seq N ≤ countMinimalKeyPresses seq (N + 1) :=
  fun _ hseq N => count_mono hseq N

/-- Witness for C5: "179A" from depth 2 to depth 3. -/
theorem cost_monotone_in_depth_witness :
    countMinimalKeyPresses ['1', '7', '9', 'A'] 2 ≤
      countMinimalKeyPresses ['1', '7', '9', 'A'] 3 :=
  cost_monotone_in_depth ['1', '7', '9', 'A'] (by decide) 2

/-- C6: for every layer 1 ≤ L ≤ N and every symbol s of the layout active at
layer L (gap cell excluded), the stored transition cost of the pair (s, s) is
exactly 1 — moving to the same key costs only the terminating activate press. -/
theorem same_key_cost_one :
    ∀ (N L : Nat) (s : Char), 1 ≤ L → L ≤ N → (mapGet (kbAt N L) s).isSome → s ≠ ' ' →
      getCost (buildCosts N N) L s s = some 1 := by
  intro N L s h1 hL hs hne
  obtain ⟨sp, hsp⟩ := isSome_exists hs
  rw [getCost_buildCosts_stable hL (le_refl L), table_eq_specCost h1 hL hsp hsp,
    specCost_diag h1 hL hs hne]

/-- Witness for C6: the pair ('<', '<') at layer 2 of a depth-3 chain. -/
theorem same_key_cost_one_witness :
    getCost (buildCosts 3 3) 2 '<' '<' = some 1 :=
  same_key_cost_one 3 2 '<' (by decide) (by decide) (by decide) (by decide)

/-- C7: for the two fixed layouts, every ordered pair of symbols (gap cell
excluded) has at least one of its two groupings with intermediate corner
distinct from the gap cell (the list of valid groupings is never empty), so the
both-blocked branch is never reached for symbol pairs and every stored cost for
such a pair is a finite natural number. -/
theorem grouping_always_valid :
    (∀ s ∈ arrowSymbols, ∀ e ∈ arrowSymbols, validGroupings arrowKeyboard s e ≠ []) ∧
    (∀ s ∈ numericSymbols, ∀ e ∈ numericSymbols, validGroupings numericKeyboard s e ≠ []) ∧
    (∀ (N L : Nat) (s e : Char), 1 ≤ L → L ≤ N →
      (mapGet (kbAt N L) s).isSome → (mapGet (kbAt N L) e).isSome → s ≠ ' ' → e ≠ ' ' →
      ∃ n : ℕ, getCost (buildCosts N N) L s e = some (n : Cost)) := by
  refine ⟨by decide, by decide, ?_⟩
  intro N L s e h1 hL hs he hsne _
  obtain ⟨sp, hsp⟩ := isSome_exists hs
  obtain ⟨ep, hep⟩ := isSome_exists he
  obtain ⟨n, hn⟩ := WithTop.ne_top_iff_exists.mp (specCost_ne_top hL hs he fun h => hsne h.1)
  have hn' : ((n : ℕ) : Cost) = specCost N L s e := by exact_mod_cast hn
  refine ⟨n, ?_⟩
  rw [getCost_buildCosts_stable hL (le_refl L), table_eq_specCost h1 hL hsp hep, ← hn']

/-- Witness for C7: the pair ('A', '<') on the arrow layout and a finite stored
cost at layer 1 of a depth-2 chain. -/
theorem grouping_always_valid_witness :
    validGroupings arrowKeyboard 'A' '<' ≠ [] ∧
    ∃ n : ℕ, getCost (buildCosts 2 2) 1 '^' 'v' = some (n : Cost) :=
  ⟨grouping_always_valid.1 'A' (by decide) '<' (by decide),
    grouping_always_valid.2.2 2 1 '^' 'v' (by decide) (by decide) (by decide) (by decide)
      (by decide) (by decide)⟩

/-- C8: the bottom-up dependency invariant.  (i) One layer's double loop writes
only entries keyed at that layer, leaving every other layer's entries
unchanged.  (ii) The entries it writes are computed by reading only layer L-1:
two base maps agreeing on layer L-1 produce identical layer-L entries.
(iii) Layers are produced in increasing order and an entry, once written at
step l, is never changed by any later step. -/
theorem bottom_up_invariant :
    (∀ (layer : Nat) (kb : Keyboard) (m : CostMap) (l : Nat) (s e : Char), l ≠ layer →
      getCost (layerStep layer kb m) l s e = getCost m l s e) ∧
    (∀ (layer : Nat) (kb : Keyboard) (m m' : CostMap), 1 ≤ layer →
      (kb.map Prod.fst).Nodup →
      (∀ s e : Char, getCost m (layer - 1) s e = getCost m' (layer - 1) s e) →
      ∀ (s e : Char) (sp ep : Point), mapGet kb s = some sp → mapGet kb e = some ep →
        getCost (layerStep layer kb m) layer s e = getCost (layerStep layer kb m') layer s e) ∧
    (∀ (layers k k' l : Nat) (s e : Char), l ≤ k → k ≤ k' →
      getCost (buildCosts layers k') l s e = getCost (buildCosts layers k) l s e) := by
  refine ⟨?_, ?_, ?_⟩
  · intro layer kb m l s e hne
    exact getCost_writesAt (layerStep_writesAt layer kb m) hne s e
  · intro layer kb m m' hl hkb hagree s e sp ep hsp hep
    obtain ⟨h1, -, -⟩ := getCost_layerStep layer hl hkb m
    obtain ⟨h1', -, -⟩ := getCost_layerStep layer hl hkb m'
    rw [h1 s sp e ep hsp hep, h1' s sp e ep hsp hep]
    unfold pairVal
    exact congrArg some (groupCost_congr _ _ _ fun a _ b _ => by rw [hagree a b])
  · intro layers k k' l s e hl hk
    exact getCost_buildCosts_stable hk hl s e

/-- Witness for C8: concrete instances of the three invariant parts. -/
theorem bottom_up_invariant_witness :
    getCost (layerStep 1 arrowKeyboard (initMovements arrowKeyboard)) 0 'A' 'v' =
      getCost (initMovements arrowKeyboard) 0 'A' 'v' ∧
    getCost (layerStep 1 arrowKeyboard (initMovements arrowKeyboard)) 1 'A' 'v' =
      getCost (layerStep 1 arrowKeyboard (initMovements arrowKeyboard)) 1 'A' 'v' ∧
    getCost (buildCosts 3 2) 1 'A' 'v' = getCost (buildCosts 3 1) 1 'A' 'v' :=
  ⟨bottom_up_invariant.1 1 arrowKeyboard (initMovements arrowKeyboard) 0 'A' 'v' (by decide),
    bottom_up_invariant.2.1 1 arrowKeyboard (initMovements arrowKeyboard)
      (initMovements arrowKeyboard) (by decide) arrow_nodup (fun _ _ => rfl) 'A' 'v'
      ((2 : Int), (0 : Int)) ((1 : Int), (1 : Int)) (by decide) (by decide),
    bottom_up_invariant.2.2 3 1 2 1 'A' 'v' (by decide) (by decide)⟩

/-- C9: symmetry of the stored costs is not guaranteed: at layer 2 of a
depth-3 chain the stored cost from 'A' to '<' differs from the stored cost from
'<' to 'A' (one direction's horizontal-first grouping is gap-blocked, the other
direction's vertical-first grouping is). -/
theorem cost_not_symmetric :
    ∃ (N L : Nat) (s e : Char), 1 ≤ L ∧ L ≤ N ∧
      (mapGet (kbAt N L) s).isSome ∧ (mapGet (kbAt N L) e).isSome ∧ s ≠ ' ' ∧ e ≠ ' ' ∧
      getCost (buildCosts N N) L s e ≠ getCost (buildCosts N N) L e s :=
  ⟨3, 2, 'A', '<', by decide, by decide, by decide, by decide, by decide, by decide, by decide⟩

/-- C10: the gap cell ' ' is a key of both keyboard maps; for every built layer
1 ≤ L ≤ N the stored entry for (' ', ' ') is Infinity (both corners coincide
with the gap), while the entry for every other ordered pair of keys of the
active layout is a finite positive integer; and costing a sequence over the
symbol alphabet never reads a space-keyed entry — the total only depends on
entries whose both key characters differ from ' '. -/
theorem gap_cell_entries :
    ((mapGet arrowKeyboard ' ').isSome ∧ (mapGet numericKeyboard ' ').isSome) ∧
    (∀ N L : Nat, 1 ≤ L → L ≤ N → getCost (buildCosts N N) L ' ' ' ' = some ⊤) ∧
    (∀ (N L : Nat) (s e : Char), 1 ≤ L → L ≤ N →
      (mapGet (kbAt N L) s).isSome → (mapGet (kbAt N L) e).isSome → ¬(s = ' ' ∧ e = ' ') →
      ∃ n : ℕ, 0 < n ∧ getCost (buildCosts N N) L s e = some (n : Cost)) ∧
    (∀ (m m' : CostMap) (l : Nat) (seq : List Char), (∀ c ∈ seq, c ∈ fullAlphabet) →
      (∀ (la : Nat) (a b : Char), a ≠ ' ' → b ≠ ' ' → getCost m la a b = getCost m' la a b) →
      countTotalPresses l seq m = countTotalPresses l seq m') := by
  refine ⟨⟨by decide, by decide⟩, ?_, ?_, ?_⟩
  · intro N L h1 hL
    have hsp : (mapGet (kbAt N L) ' ').isSome := by
      rcases kbAt_cases N L with hk | hk <;> rw [hk] <;> decide
    obtain ⟨sp, hsp'⟩ := isSome_exists hsp
    rw [getCost_buildCosts_stable hL (le_refl L), table_eq_specCost h1 hL hsp' hsp',
      specCost_space h1 hL]
  · intro N L s e h1 hL hs he hne
    obtain ⟨sp, hsp⟩ := isSome_exists hs
    obtain ⟨ep, hep⟩ := isSome_exists he
    obtain ⟨n, hn⟩ := WithTop.ne_top_iff_exists.mp (specCost_ne_top hL hs he hne)
    have hn' : ((n : ℕ) : Cost) = specCost N L s e := by exact_mod_cast hn
    refine ⟨n, ?_, ?_⟩
    · have hpos := specCost_pos hL hs he
      rw [← hn'] at hpos
      by_contra h0
      have hn0 : n = 0 := by omega
      rw [hn0] at hpos
      exact absurd hpos (by decide)
    · rw [getCost_buildCosts_stable hL (le_refl L), table_eq_specCost h1 hL hsp hep, ← hn']
  · intro m m' l seq hseq hagree
    rw [countTotalPresses_eq_sumPairs, countTotalPresses_eq_sumPairs]
    refine sumPairs_congr fun p hp => ?_
    obtain ⟨h1, h2⟩ := mem_pairsFrom hp
    have hA : ∀ c ∈ fullAlphabet, c ≠ ' ' := by decide
    have hp1 : p.1 ≠ ' ' := by
      rcases List.mem_cons.mp h1 with h1 | h1
      · rw [h1]; decide
      · exact hA _ (hseq _ h1)
    have hp2 : p.2 ≠ ' ' := hA _ (hseq _ h2)
    rw [hagree l p.1 p.2 hp1 hp2]

/-- Witness for C10: the space-space entry at layer 1 of a depth-2 chain is
Infinity, and the ('0', 'A') entry at the numeric layer is finite positive. -/
theorem gap_cell_entries_witness :
    getCost (buildCosts 2 2) 1 ' ' ' ' = some ⊤ ∧
    ∃ n : ℕ, 0 < n ∧ getCost (buildCosts 2 2) 2 '0' 'A' = some (n : Cost) :=
  ⟨gap_cell_entries.2.1 2 1 (by decide) (by decide),
    gap_cell_entries.2.2.1 2 2 '0' 'A' (by decide) (by decide) (by decide) (by decide)
      (by decide)⟩

end Day21
